import Mathlib

/-!
# srt-search: verification of the subtitle indexing and search core

Shallow embedding of the srt-search repository's core: the subtitle parser,
file matcher, index store (schema from the SQL initialization file), reindex
pipeline and search engine, together with theorems settling the spec claims.

The repository ships the frontend, the SQL schema and deployment files; the
Python backend implementing the core is not part of the source tree, so the
corresponding definitions are modelled from the specification (each such
definition says so in its doc comment).  The SQL schema (`videos` /
`segments` tables) is embedded from the initialization script directly.
-/

namespace SrtSearch

/-! ## Character-level string primitives (structural, kernel-evaluable) -/

/-- Split a character list at every occurrence of `sep` (the separator is
dropped; empty groups are kept). -/
def splitOnChar (sep : Char) : List Char → List (List Char)
  | [] => [[]]
  | c :: cs =>
    let r := splitOnChar sep cs
    if c == sep then [] :: r
    else
      match r with
      | [] => [[c]]
      | g :: gs => (c :: g) :: gs

/-- Decimal digit value of a character, if it is a digit. -/
def digitVal? (c : Char) : Option Nat :=
  if c.isDigit then some (c.toNat - 48) else none

/-- Accumulate decimal digits into a number; fails on a non-digit. -/
def digitsToNatAux (acc : Nat) : List Char → Option Nat
  | [] => some acc
  | c :: cs =>
    match digitVal? c with
    | some d => digitsToNatAux (acc * 10 + d) cs
    | none => none

/-- Parse a non-empty all-digit character list as a natural number. -/
def parseNat? (l : List Char) : Option Nat :=
  if l.isEmpty then none else digitsToNatAux 0 l

/-- Drop leading and trailing whitespace of a character list. -/
def trimChars (l : List Char) : List Char :=
  ((l.dropWhile Char.isWhitespace).reverse.dropWhile Char.isWhitespace).reverse

/-! ## Subtitle parser

The backend subtitle parser is not in the source tree; the definitions
below are modelled from the specification's grammar (§4.2). -/

/-- One timed subtitle cue as produced by the parser. -/
structure Segment where
  start_ms : Nat
  end_ms   : Nat
  text     : String
deriving DecidableEq, Repr

/-- The millisecond formula of the spec: `((H*60+M)*60+S)*1000+ms`. -/
def hmsToMs (h m s ms : Nat) : Nat := ((h * 60 + m) * 60 + s) * 1000 + ms

/-- Modelled from the spec: the component extraction step of timestamp
parsing.  A timestamp `HH:MM:SS,mmm` (comma or period before the
milliseconds both accepted) is split into its four numeric fields. -/
def timecodeParts (str : List Char) : Option (Nat × Nat × Nat × Nat) :=
  match splitOnChar ':' str with
  | [hh, mm, rest] =>
    let secParts :=
      if (splitOnChar ',' rest).length == 2 then splitOnChar ',' rest
      else splitOnChar '.' rest
    match secParts with
    | [ss, mmm] =>
      match parseNat? hh, parseNat? mm, parseNat? ss, parseNat? mmm with
      | some h, some m, some s, some ms => some (h, m, s, ms)
      | _, _, _, _ => none
    | _ => none
  | _ => none

/-- Modelled from the spec: parse one timestamp to milliseconds using the
spec's formula `((H*60+M)*60+S)*1000+ms`. -/
def parseTimestamp (str : List Char) : Option Nat :=
  match timecodeParts str with
  | some (h, m, s, ms) => some (hmsToMs h m s ms)
  | none => none

/-- Modelled from the spec: parse a timecode line
`HH:MM:SS,mmm --> HH:MM:SS,mmm` into a (start, end) millisecond pair: the
line is split on spaces into the start timestamp, the `-->` arrow and the
end timestamp. -/
def parseTimecodeLine (line : List Char) : Option (Nat × Nat) :=
  match (splitOnChar ' ' (trimChars line)).filter (fun w => !w.isEmpty) with
  | [l, arrow, r] =>
    if arrow = ['-', '-', '>'] then
      match parseTimestamp l, parseTimestamp r with
      | some a, some b => some (a, b)
      | _, _ => none
    else none
  | _ => none

/-- Split a line list into blocks at blank lines (auxiliary). -/
def splitBlocksAux : List (List Char) → List (List Char) → List (List (List Char))
  | [], cur => [cur.reverse]
  | l :: ls, cur =>
    if (trimChars l).isEmpty then cur.reverse :: splitBlocksAux ls []
    else splitBlocksAux ls (l :: cur)

/-- Modelled from the spec: blocks are separated by blank lines; empty
blocks (extra blank lines) are dropped. -/
def splitBlocks (lines : List (List Char)) : List (List (List Char)) :=
  (splitBlocksAux lines []).filter (fun b => !b.isEmpty)

/-- Modelled from the spec: parse one block.  The numeric index line is
optional — the first line that parses as a timecode line is used; the
remaining non-blank lines are the text, joined with a single space.  A
block with no valid timecode line or no text line is rejected (the caller
skips it, not fatal to the rest of the file). -/
def parseBlock : List (List Char) → Option Segment
  | [] => none
  | l :: rest =>
    match parseTimecodeLine l with
    | some (s, e) =>
      let textLines := (rest.map trimChars).filter (fun t => !t.isEmpty)
      if textLines.isEmpty then none
      else some ⟨s, e, String.mk (List.intercalate [' '] textLines)⟩
    | none => parseBlock rest

/-- Modelled from the spec: the subtitle parser.  Input is the decoded
file as a list of lines; output is the ordered list of segments, one per
parsable block, unparsable blocks skipped. -/
def parseSrt (lines : List String) : List Segment :=
  (splitBlocks (lines.map String.data)).filterMap parseBlock

/-- The two-block example file of the spec, as a line list. -/
def exampleSrtLines : List String :=
  ["1", "00:00:01,000 --> 00:00:03,500", "Hello world", "",
   "2", "00:00:04,000 --> 00:00:05,000", "Goodbye"]

example : parseSrt exampleSrtLines =
    [⟨1000, 3500, "Hello world"⟩, ⟨4000, 5000, "Goodbye"⟩] := by decide

/-! ## File matcher

The backend file matcher is not in the source tree; the definitions below
are modelled from the specification (§4.1) and the README's matching rule
(same basename, same-directory preference). -/

/-- A file discovered in the media tree: its directory (path from the media
root), basename with the extension stripped, and extension. -/
structure MediaFile where
  dir  : String
  stem : String
  ext  : String
deriving DecidableEq, Repr

/-- Lowercased characters of a string (case-insensitive comparison key). -/
def lowerKey (s : String) : List Char := s.data.map Char.toLower

/-- Modelled from the spec: a subtitle matches a video if and only if their
basenames (name with extension stripped) are equal, independent of case. -/
def matchesVideo (vid sub : MediaFile) : Bool :=
  lowerKey sub.stem == lowerKey vid.stem

/-- Modelled from the spec: select the subtitle for a video among the
discovered subtitle files.  Candidates are the subtitles whose basename
matches case-insensitively; a candidate in the video's own directory is
preferred; among several same-directory candidates the first in scan order
is taken (deterministic but arbitrary among ties, per the spec). -/
def pickSubtitle (subs : List MediaFile) (vid : MediaFile) : Option MediaFile :=
  let cands := subs.filter (matchesVideo vid)
  match cands.filter (fun s => s.dir == vid.dir) with
  | [] => cands.head?
  | s :: _ => some s

/-- Modelled from the spec: extensions classified as video and subtitle. -/
def videoExts : List String := [".mp4", ".avi"]

/-- Modelled from the spec: a file is a subtitle when its extension is
`.srt`. -/
def isSubtitleFile (f : MediaFile) : Bool := f.ext == ".srt"

/-- Modelled from the spec: a file is a video when its extension is one of
the recognized container formats. -/
def isVideoFile (f : MediaFile) : Bool := videoExts.contains f.ext

/-- Modelled from the spec: the file matcher produces one record per
discovered video, with the resolved subtitle when one matches. -/
def matchFiles (files : List MediaFile) : List (MediaFile × Option MediaFile) :=
  (files.filter isVideoFile).map
    (fun v => (v, pickSubtitle (files.filter isSubtitleFile) v))

example :
    pickSubtitle [⟨"", "Video", ".srt"⟩] ⟨"", "video", ".mp4"⟩ =
      some ⟨"", "Video", ".srt"⟩ := by decide

example :
    pickSubtitle [⟨"a", "video", ".srt"⟩, ⟨"b", "video", ".srt"⟩]
        ⟨"b", "video", ".mp4"⟩ =
      some ⟨"b", "video", ".srt"⟩ := by decide

/-! ## Index store schema

Embedded from the SQL initialization script of the repository: tables
`videos` (id SERIAL PRIMARY KEY, basename UNIQUE NOT NULL, rel_path, ext,
…) and `segments` (id SERIAL PRIMARY KEY, video_id NOT NULL REFERENCES
videos(id) ON DELETE CASCADE, segment_index INTEGER NOT NULL, start_ms
BIGINT NOT NULL, end_ms BIGINT NOT NULL, text NOT NULL).  The declared
constraints are exactly: primary keys, `videos.basename` UNIQUE, the NOT
NULL marks, and the foreign key with cascade.  There is no uniqueness
constraint on `(video_id, segment_index)` and no CHECK constraint on
`start_ms`/`end_ms`.  Columns that are defaulted metadata (`size_bytes`,
`segment_count`, `duration_ms`, timestamps) or trigger-derived
(`text_vector`) carry no constraints bearing on the claims and are
modelled by the defaulted `size_bytes`/`segment_count`/`duration_ms`
fields. -/

/-- A row of the `videos` table. -/
structure VideoRow where
  id : Nat
  basename : String
  rel_path : String
  ext : String
  size_bytes : Int := 0
  segment_count : Int := 0
  duration_ms : Int := 0
deriving DecidableEq, Repr

/-- A row of the `segments` table.  `segment_index`, `start_ms` and
`end_ms` are signed column types (INTEGER / BIGINT). -/
structure SegmentRow where
  id : Nat
  video_id : Nat
  segment_index : Int
  start_ms : Int
  end_ms : Int
  text : String
deriving DecidableEq, Repr

/-- The database state: the two tables plus the SERIAL counters. -/
structure Db where
  videos : List VideoRow
  segments : List SegmentRow
  nextVideoId : Nat := 0
  nextSegmentId : Nat := 0
deriving DecidableEq, Repr

/-- The empty database produced by the initialization script. -/
def emptyDb : Db := { videos := [], segments := [] }

/-- Metadata of one video as delivered by the file matcher. -/
structure VideoMeta where
  basename : String
  rel_path : String
  ext : String
deriving DecidableEq, Repr

/-- Insert into `videos`, enforcing exactly the declared constraints: the
UNIQUE constraint on `basename` rejects a duplicate, the SERIAL primary
key is assigned fresh.  Returns the new state and the assigned id, or
`none` on constraint violation. -/
def insertVideo (db : Db) (meta : VideoMeta) : Option (Db × Nat) :=
  if db.videos.any (fun v => v.basename == meta.basename) then none
  else
    some ({ db with
              videos := db.videos ++
                [{ id := db.nextVideoId, basename := meta.basename,
                   rel_path := meta.rel_path, ext := meta.ext }],
              nextVideoId := db.nextVideoId + 1 },
          db.nextVideoId)

/-- Insert into `segments`, enforcing exactly the declared constraints:
the foreign key requires an existing video; nothing else is checked — in
particular no uniqueness of `(video_id, segment_index)` and no sign or
ordering check on `start_ms`/`end_ms`. -/
def insertSegment (db : Db) (video_id : Nat) (segment_index start_ms end_ms : Int)
    (text : String) : Option Db :=
  if db.videos.any (fun v => v.id == video_id) then
    some { db with
             segments := db.segments ++
               [{ id := db.nextSegmentId, video_id := video_id,
                  segment_index := segment_index, start_ms := start_ms,
                  end_ms := end_ms, text := text }],
             nextSegmentId := db.nextSegmentId + 1 }
  else none

/-- DELETE of the videos with a given basename; the `ON DELETE CASCADE`
clause of `segments.video_id` removes the owned segments with them. -/
def deleteVideoCascade (db : Db) (basename : String) : Db :=
  let victims := db.videos.filter (fun v => v.basename == basename)
  { db with
      videos := db.videos.filter (fun v => !(v.basename == basename)),
      segments := db.segments.filter
        (fun s => !victims.any (fun v => v.id == s.video_id)) }

/-- Bulk-insert the parsed segments of one video, assigning ascending
`segment_index` values starting at `i` in list order, values stored
exactly as parsed. -/
def insertSegmentsFrom (db : Db) (vid : Nat) (i : Nat) : List Segment → Db
  | [] => db
  | s :: rest =>
    match insertSegment db vid i s.start_ms s.end_ms s.text with
    | some db' => insertSegmentsFrom db' vid (i + 1) rest
    | none => insertSegmentsFrom db vid (i + 1) rest

/-- Modelled from the spec: add one video and its parsed segments to the
dataset being built.  A basename already present is not duplicated
(re-indexing replaces, never duplicates). -/
def addVideoWithSegments (db : Db) (meta : VideoMeta) (segs : List Segment) : Db :=
  match insertVideo db meta with
  | none => db
  | some (db', vid) => insertSegmentsFrom db' vid 0 segs

/-- Modelled from the spec: build a fresh dataset from the accumulated
(video, segments) pairs of one reindex run. -/
def buildDb (data : List (VideoMeta × List Segment)) : Db :=
  data.foldl (fun db x => addVideoWithSegments db x.1 x.2) emptyDb

/-- At most one `videos` row per basename. -/
def uniqueBasenames (db : Db) : Prop :=
  (db.videos.map VideoRow.basename).Nodup

/-- Every segment row references an existing video row (no orphans). -/
def noOrphans (db : Db) : Prop :=
  ∀ s ∈ db.segments, ∃ v ∈ db.videos, v.id = s.video_id

example :
    (insertVideo emptyDb ⟨"v", "v.mp4", ".mp4"⟩).map (fun p => p.2) = some 0 := by decide

/-! ## Search engine

The backend search engine is not in the source tree; the definitions below
are modelled from the specification (§4.3, §4.5): a closed query grammar
(term / trailing-star token / quoted phrase / OR), exact full-text matching
with a term-frequency score and the stable tie-broken ranking, a bounded
edit-distance fuzzy matcher, and the exact-then-fuzzy-fallback pipeline. -/

/-- Lowercased characters (matching is case-insensitive full text). -/
def lowerChars (l : List Char) : List Char := l.map Char.toLower

/-- The words of a character list: split on spaces, empties dropped. -/
def wordsOf (l : List Char) : List (List Char) :=
  (splitOnChar ' ' l).filter (fun w => !w.isEmpty)

/-- Modelled from the spec: the closed query grammar — a literal term, a
trailing-star token (match words starting with the stem), or a quoted
phrase (adjacent word sequence). -/
inductive QueryAtom
  | term (w : List Char)
  | pre (w : List Char)
  | phrase (ws : List (List Char))
deriving DecidableEq, Repr

/-- Modelled from the spec: a parsed query is either an AND or an OR of
atoms. -/
inductive Query
  | andQ (atoms : List QueryAtom)
  | orQ (atoms : List QueryAtom)
deriving DecidableEq, Repr

/-- Modelled from the spec: a token with a trailing `*` is a stem match,
anything else a literal term (malformed operator usage degrades to literal
matching). -/
def parseAtom (w : List Char) : QueryAtom :=
  match w.getLast? with
  | some '*' => .pre (lowerChars w.dropLast)
  | _ => .term (lowerChars w)

/-- The `OR` operator token. -/
def orToken : List Char := ['O', 'R']

/-- Modelled from the spec: parse the query string — a fully quoted query
is an exact adjacent-sequence phrase; `OR` between terms takes the union;
otherwise the tokens are ANDed. -/
def parseQuery (q : String) : Query :=
  let cs := trimChars q.data
  if 2 ≤ cs.length && cs.head? == some '"' && cs.getLast? == some '"' then
    .andQ [.phrase (wordsOf (lowerChars (cs.drop 1).dropLast))]
  else
    let ws := wordsOf cs
    if ws.contains orToken then
      .orQ ((ws.filter (fun w => !(w == orToken))).map parseAtom)
    else .andQ (ws.map parseAtom)

/-- Does the word start with the given stem? -/
def startsWithChars : List Char → List Char → Bool
  | [], _ => true
  | _ :: _, [] => false
  | p :: ps, c :: cs => p == c && startsWithChars ps cs

/-- Does the phrase occur right here (adjacent word sequence)? -/
def phraseAt : List (List Char) → List (List Char) → Bool
  | [], _ => true
  | _ :: _, [] => false
  | p :: ps, w :: ws => p == w && phraseAt ps ws

/-- Does the phrase occur anywhere in the word sequence? -/
def phraseIn (ps : List (List Char)) : List (List Char) → Bool
  | [] => ps.isEmpty
  | w :: rest => phraseAt ps (w :: rest) || phraseIn ps rest

/-- Does one atom match the (lowercased) word sequence of a segment? -/
def atomMatches (ws : List (List Char)) : QueryAtom → Bool
  | .term w => ws.contains w
  | .pre p => ws.any (fun w => startsWithChars p w)
  | .phrase ps => phraseIn ps ws

/-- Number of positions at which the phrase occurs. -/
def countPhrase (ps : List (List Char)) : List (List Char) → Nat
  | [] => 0
  | w :: rest => (if phraseAt ps (w :: rest) then 1 else 0) + countPhrase ps rest

/-- Term-frequency contribution of one atom (the model's relevance
score). -/
def atomScore (ws : List (List Char)) : QueryAtom → Nat
  | .term w => ws.count w
  | .pre p => (ws.filter (fun w => startsWithChars p w)).length
  | .phrase ps => countPhrase ps ws

/-- Does the parsed query match the segment text? -/
def queryMatches (q : Query) (text : String) : Bool :=
  let ws := wordsOf (lowerChars text.data)
  match q with
  | .andQ atoms => atoms.all (atomMatches ws)
  | .orQ atoms => atoms.any (atomMatches ws)

/-- Relevance score of the segment text for the parsed query. -/
def queryScore (q : Query) (text : String) : Nat :=
  let ws := wordsOf (lowerChars text.data)
  match q with
  | .andQ atoms => (atoms.map (atomScore ws)).sum
  | .orQ atoms => (atoms.map (atomScore ws)).sum

/-- One ranked search result row. -/
structure SearchHit where
  video_basename : String
  rel_path : String
  ext : String
  start_ms : Int
  end_ms : Int
  text : String
  score : Nat
deriving DecidableEq, Repr

/-- A search response: the total match count and one page of results. -/
structure SearchResponse where
  total : Nat
  items : List SearchHit
deriving DecidableEq, Repr

/-- Lexicographic comparison of character lists. -/
def lexLeChars : List Char → List Char → Bool
  | [], _ => true
  | _ :: _, [] => false
  | a :: as, b :: bs => if a < b then true else if b < a then false else lexLeChars as bs

/-- Modelled from the spec: the ranking comparison — higher score first,
ties broken by ascending start time, then by video basename. -/
def rankLE (a b : SearchHit) : Bool :=
  decide (b.score < a.score) ||
    (decide (a.score = b.score) &&
      (decide (a.start_ms < b.start_ms) ||
        (decide (a.start_ms = b.start_ms) &&
          lexLeChars a.video_basename.data b.video_basename.data)))

/-- The ranking comparison as a relation. -/
def RankLE (a b : SearchHit) : Prop := rankLE a b = true

instance : DecidableRel RankLE :=
  fun a b => inferInstanceAs (Decidable (rankLE a b = true))

/-- Modelled from the spec: an unknown file filter is a no-op; a known one
restricts results to that video. -/
def passesFilter (db : Db) (file : Option String) (v : VideoRow) : Bool :=
  match file with
  | none => true
  | some b => if db.videos.any (fun w => w.basename == b) then v.basename == b else true

/-- The exact-match hits of a query over the database, unranked. -/
def segmentHits (db : Db) (q : Query) (file : Option String) : List SearchHit :=
  db.segments.filterMap (fun s =>
    match db.videos.find? (fun v => v.id == s.video_id) with
    | some v =>
      if passesFilter db file v && queryMatches q s.text then
        some { video_basename := v.basename, rel_path := v.rel_path, ext := v.ext,
               start_ms := s.start_ms, end_ms := s.end_ms, text := s.text,
               score := queryScore q s.text }
      else none
    | none => none)

/-- The sane maximum page size (README: limit is capped at 100). -/
def maxLimit : Nat := 100

/-- Modelled from the spec: relevance-ranked full-text match over segment
text, optionally restricted to one video, stable ranking order, paginated
by offset and capped limit. -/
def search_exact (db : Db) (q : String) (file : Option String) (offset limit : Nat) :
    SearchResponse :=
  let ranked := List.insertionSort RankLE (segmentHits db (parseQuery q) file)
  { total := ranked.length, items := (ranked.drop offset).take (min limit maxLimit) }

/-- Bounded edit distance, fuel-structured so that it evaluates by kernel
reduction; the fuel given by `editWithin` always suffices. -/
def editWithinFuel : Nat → Nat → List Char → List Char → Bool
  | 0, _, _, _ => false
  | _ + 1, k, [], ys => decide (ys.length ≤ k)
  | _ + 1, k, _ :: xs, [] => decide (xs.length + 1 ≤ k)
  | f + 1, k, x :: xs, y :: ys =>
    if x == y then editWithinFuel f k xs ys
    else
      match k with
      | 0 => false
      | k' + 1 =>
        editWithinFuel f k' xs ys || editWithinFuel f k' (x :: xs) ys ||
          editWithinFuel f k' xs (y :: ys)

/-- Is the edit distance between the two words at most `k`? -/
def editWithin (k : Nat) (xs ys : List Char) : Bool :=
  editWithinFuel (xs.length + ys.length + 1) k xs ys

/-- Modelled from the spec: the distance tolerance scales with term
length — short terms require near-exact matches. -/
def fuzzyTol (w : List Char) : Nat :=
  if w.length ≤ 4 then 1 else 2

/-- Does every fuzzy term come within tolerance of some word? -/
def fuzzyMatches (terms : List (List Char)) (text : String) : Bool :=
  let ws := wordsOf (lowerChars text.data)
  terms.all (fun t => ws.any (fun w => editWithin (fuzzyTol t) t w))

/-- Number of within-tolerance (term, word) pairs, the fuzzy score. -/
def fuzzyScore (terms : List (List Char)) (text : String) : Nat :=
  let ws := wordsOf (lowerChars text.data)
  (terms.map (fun t => (ws.filter (fun w => editWithin (fuzzyTol t) t w)).length)).sum

/-- Modelled from the spec: approximate character-similarity match over the
same filter and pagination window. -/
def search_fuzzy (db : Db) (q : String) (file : Option String) (offset limit : Nat) :
    SearchResponse :=
  let terms := wordsOf (lowerChars (trimChars q.data))
  let hits := db.segments.filterMap (fun s =>
    match db.videos.find? (fun v => v.id == s.video_id) with
    | some v =>
      if passesFilter db file v && fuzzyMatches terms s.text then
        some { video_basename := v.basename, rel_path := v.rel_path, ext := v.ext,
               start_ms := s.start_ms, end_ms := s.end_ms, text := s.text,
               score := fuzzyScore terms s.text }
      else none
    | none => none)
  let ranked := List.insertionSort RankLE hits
  { total := ranked.length, items := (ranked.drop offset).take (min limit maxLimit) }

/-- The parameters of one search request. -/
structure SearchParams where
  q : String
  file : Option String := none
  offset : Nat := 0
  limit : Nat := 25
  fuzzy : Bool := false
deriving DecidableEq, Repr

/-- Modelled from the spec: the fuzzy-fallback guard — fuzzy search runs
exactly when the exact search returned zero rows and fuzzy is enabled
(`if total_exact == 0 and fuzzy_enabled`). -/
def usedFuzzy (db : Db) (p : SearchParams) : Bool :=
  (search_exact db p.q p.file p.offset p.limit).total == 0 && p.fuzzy

/-- Modelled from the spec: the two-step search pipeline — exact first,
fuzzy strictly as a fallback, never blended. -/
def searchRun (db : Db) (p : SearchParams) : SearchResponse :=
  if usedFuzzy db p then search_fuzzy db p.q p.file p.offset p.limit
  else search_exact db p.q p.file p.offset p.limit

/-- Modelled from the spec: the search operation exposed by the core;
state-passing makes the absence of side effects explicit. -/
def search (db : Db) (p : SearchParams) : SearchResponse × Db :=
  (searchRun db p, db)

/-! ## Reindex pipeline

Modelled from the spec (§4.4, §5): the state machine
`Idle → Scanning → Parsing → Committing → Idle` with a `Failed` edge, the
single-flight trigger, and the transactional commit whose failure leaves
the previous index untouched. -/

/-- The reindex pipeline states. -/
inductive PipelineState
  | Idle
  | Scanning
  | Parsing
  | Committing
  | Failed
deriving DecidableEq, Repr

/-- The result reported to a reindex request. -/
structure TriggerResult where
  accepted : Bool
deriving DecidableEq, Repr

/-- Modelled from the spec: `trigger_reindex` — a request received while
the pipeline is not `Idle` is rejected immediately and changes nothing; an
idle pipeline accepts and moves to `Scanning`. -/
def trigger_reindex : PipelineState → TriggerResult × PipelineState
  | .Idle => (⟨true⟩, .Scanning)
  | st => (⟨false⟩, st)

/-- One write of the committing step, as executed inside the store
transaction. -/
inductive WriteStep
  | wipe
  | insVideo (meta : VideoMeta)
  | insSegment (video_id : Nat) (segment_index start_ms end_ms : Int) (text : String)
deriving DecidableEq, Repr

/-- Apply one write, failing on a constraint violation. -/
def applyStep (db : Db) : WriteStep → Option Db
  | .wipe => some { db with videos := [], segments := [] }
  | .insVideo meta => (insertVideo db meta).map (fun p => p.1)
  | .insSegment vid idx s e t => insertSegment db vid idx s e t

/-- Apply the writes in order; the first failure aborts. -/
def applySteps (db : Db) : List WriteStep → Option Db
  | [] => some db
  | st :: rest =>
    match applyStep db st with
    | some db' => applySteps db' rest
    | none => none

/-- Transactional commit: on success the new state, on any failure a
rollback to the untouched previous state (the initialization script wraps
its writes in BEGIN/COMMIT; the store is transactional). -/
def runTransaction (db : Db) (steps : List WriteStep) : Db :=
  match applySteps db steps with
  | some db' => db'
  | none => db

/-! ## Atomic replace_all under concurrent readers

Modelled from the spec (§4.3, §5): `replace_all` builds the new dataset
under a working identity invisible to readers, then performs a single
atomic cut-over; readers never block and always see the current snapshot.
The interleaving of one `replace_all` with concurrent reads is modelled as
a step relation; a read observes the visible snapshot at its point in the
interleaving. -/

/-- The joint state of the store and one in-flight `replace_all`: the
visible snapshot, the working dataset built so far, the input not yet
processed, and whether the cut-over has happened. -/
structure RWState where
  visible : Db
  built : List (VideoMeta × List Segment)
  pending : List (VideoMeta × List Segment)
  committed : Bool
deriving DecidableEq, Repr

/-- The events of the interleaving: a writer build step, the writer's
atomic cut-over, or a reader's read. -/
inductive RWStep
  | work
  | cutOver
  | read
deriving DecidableEq, Repr

/-- Initial state: the old snapshot is visible, nothing built yet. -/
def rwInit (old : Db) (data : List (VideoMeta × List Segment)) : RWState :=
  { visible := old, built := [], pending := data, committed := false }

/-- One step of the interleaving.  Building touches only the working
dataset; the cut-over installs the fully built dataset in one step; a read
changes nothing. -/
def rwStep (st : RWState) : RWStep → RWState
  | .work =>
    match st.pending with
    | [] => st
    | x :: rest => { st with built := st.built ++ [x], pending := rest }
  | .cutOver =>
    if st.pending.isEmpty && !st.committed then
      { st with visible := buildDb st.built, committed := true }
    else st
  | .read => st

/-- Run an interleaving. -/
def rwRun (st : RWState) : List RWStep → RWState
  | [] => st
  | s :: rest => rwRun (rwStep st s) rest

/-- The snapshots observed by the reads of an interleaving. -/
def observations (st : RWState) : List RWStep → List Db
  | [] => []
  | s :: rest =>
    match s with
    | .read => st.visible :: observations (rwStep st s) rest
    | _ => observations (rwStep st s) rest

/-! ## The core's operations and reachable states -/

/-- An operation of the core against the store: a completed reindex
(`replace_all` of the freshly built dataset) or a search. -/
inductive CoreOp
  | reindex (data : List (VideoMeta × List Segment))
  | searchOp (p : SearchParams)
deriving DecidableEq, Repr

/-- Apply one core operation to the store. -/
def applyOp (db : Db) : CoreOp → Db
  | .reindex data => buildDb data
  | .searchOp p => (search db p).2

/-- Run a sequence of core operations from a store state. -/
def runOps (db : Db) : List CoreOp → Db
  | [] => db
  | op :: rest => runOps (applyOp db op) rest

/-- The rows the store holds for one video's parsed segments: ids and
sequence indexes ascend from the given starting points in list order, the
times and text are stored exactly as parsed.  This is the specification
the bulk insert is proved to meet. -/
def segRows (vid : Nat) : Nat → Nat → List Segment → List SegmentRow
  | _, _, [] => []
  | firstId, idx, s :: rest =>
    { id := firstId, video_id := vid, segment_index := (idx : Int),
      start_ms := (s.start_ms : Int), end_ms := (s.end_ms : Int), text := s.text } ::
      segRows vid (firstId + 1) (idx + 1) rest

/-- A subtitle file with out-of-order cues, an overlapping cue, and a cue
whose end precedes its start (also using the period separator). -/
def outOfOrderSrtLines : List String :=
  ["1", "00:00:05,000 --> 00:00:01,000", "Late first", "",
   "2", "00:00:00,500 --> 00:00:00,800", "Early second", "",
   "3", "00:00:00.700 --> 00:00:00.600", "End before start"]

/-! ## Theorems -/

/-- Inversion of a successful timestamp parse: the milliseconds are the
spec formula applied to the extracted components. -/
theorem parseTimestamp_eq_some {str : List Char} {t : Nat}
    (hp : parseTimestamp str = some t) :
    ∃ h m s ms, timecodeParts str = some (h, m, s, ms) ∧ t = hmsToMs h m s ms := by
  unfold parseTimestamp at hp
  split at hp
  · next h m s ms heq =>
    exact ⟨h, m, s, ms, heq, (Option.some_inj.mp hp).symm⟩
  · exact absurd hp (by simp)

/-- C9: a reindex request received while the pipeline is not Idle is
reported as rejected (accepted = false) and changes nothing — it is not
queued and no second rebuild starts. -/
theorem trigger_rejected_when_not_idle (st : PipelineState) (h : st ≠ .Idle) :
    (trigger_reindex st).1.accepted = false ∧ (trigger_reindex st).2 = st := by
  cases st <;> first
    | exact absurd rfl h
    | exact ⟨rfl, rfl⟩

theorem trigger_rejected_when_not_idle_witness :
    (trigger_reindex .Scanning).1.accepted = false ∧
      (trigger_reindex .Scanning).2 = .Scanning :=
  trigger_rejected_when_not_idle .Scanning (by decide)

/-- C3: when the committing step fails at the store level, the transaction
rolls back, the previously committed index remains the authoritative state
unchanged, and every search afterwards returns exactly what it returned
before. -/
theorem commit_failure_leaves_previous_index (db : Db) (steps : List WriteStep)
    (h : applySteps db steps = none) :
    runTransaction db steps = db ∧
      ∀ p : SearchParams, (search (runTransaction db steps) p).1 = (search db p).1 := by
  have he : runTransaction db steps = db := by unfold runTransaction; rw [h]
  exact ⟨he, fun p => by rw [he]⟩

theorem commit_failure_leaves_previous_index_witness :
    runTransaction emptyDb [WriteStep.insSegment 0 0 0 0 "x"] = emptyDb :=
  (commit_failure_leaves_previous_index emptyDb [WriteStep.insSegment 0 0 0 0 "x"]
    (by decide)).1

/-- C10: the segments table enforces no identity or time validity beyond
its declared constraints — inserting two rows with the same
(video_id, segment_index) pair succeeds, and so does a row with negative
times and end_ms < start_ms. -/
theorem segments_schema_admits_duplicates_and_invalid_times :
    ((insertVideo emptyDb ⟨"v", "v.mp4", ".mp4"⟩).bind (fun p =>
        (insertSegment p.1 p.2 0 (-5) (-10) "a").bind (fun db1 =>
          insertSegment db1 p.2 0 (-5) (-10) "b"))).map
        (fun db2 => db2.segments.map (fun s =>
          (s.video_id, s.segment_index, s.start_ms, s.end_ms))) =
      some [(0, 0, -5, -10), (0, 0, -5, -10)] := by decide

/-- C2: with fuzzy enabled, the fuzzy search runs exactly when the exact
search returned zero rows; whenever the exact search has at least one hit
the response is the exact response alone, with no fuzzy results blended
in. -/
theorem fuzzy_strictly_fallback (db : Db) (p : SearchParams) (hf : p.fuzzy = true) :
    (usedFuzzy db p = true ↔ (search_exact db p.q p.file p.offset p.limit).total = 0) ∧
      searchRun db p =
        (if (search_exact db p.q p.file p.offset p.limit).total = 0
          then search_fuzzy db p.q p.file p.offset p.limit
          else search_exact db p.q p.file p.offset p.limit) := by
  constructor
  · unfold usedFuzzy
    rw [hf]
    simp
  · unfold searchRun usedFuzzy
    rw [hf]
    by_cases h : (search_exact db p.q p.file p.offset p.limit).total = 0 <;>
      simp [h]

theorem fuzzy_strictly_fallback_witness :
    searchRun (buildDb [(⟨"v", "v.mp4", ".mp4"⟩, [⟨1000, 3500, "Hello world"⟩])])
        { q := "hello", fuzzy := true } =
      search_exact (buildDb [(⟨"v", "v.mp4", ".mp4"⟩, [⟨1000, 3500, "Hello world"⟩])])
        "hello" none 0 25 := by
  have h := (fuzzy_strictly_fallback
    (buildDb [(⟨"v", "v.mp4", ".mp4"⟩, [⟨1000, 3500, "Hello world"⟩])])
    { q := "hello", fuzzy := true } rfl).2
  rw [h, if_neg (by decide)]

/-- C6: a timecode line parses by the spec formula
`((H*60+M)*60+S)*1000+ms` on each side, and the spec's two-block example
file parses to exactly the two expected segments in order. -/
theorem parser_timecode_formula :
    (∀ (str : List Char) (h m s ms : Nat), timecodeParts str = some (h, m, s, ms) →
        parseTimestamp str = some (((h * 60 + m) * 60 + s) * 1000 + ms)) ∧
      (∀ (line : List Char) (a b : Nat), parseTimecodeLine line = some (a, b) →
        ∃ l arrow r h m s ms h' m' s' ms',
          (splitOnChar ' ' (trimChars line)).filter (fun w => !w.isEmpty) =
              [l, arrow, r] ∧
            timecodeParts l = some (h, m, s, ms) ∧
            timecodeParts r = some (h', m', s', ms') ∧
            a = ((h * 60 + m) * 60 + s) * 1000 + ms ∧
            b = ((h' * 60 + m') * 60 + s') * 1000 + ms') ∧
      parseSrt exampleSrtLines =
        [⟨1000, 3500, "Hello world"⟩, ⟨4000, 5000, "Goodbye"⟩] := by
  refine ⟨?_, ?_, by decide⟩
  · intro str h m s ms hp
    unfold parseTimestamp
    rw [hp]
    rfl
  · intro line a b hp
    unfold parseTimecodeLine at hp
    split at hp
    · next l arrow r heq =>
      split at hp
      · next harrow =>
        split at hp
        · next a' b' hl hr =>
          obtain ⟨h, m, s, ms, hparts, hval⟩ := parseTimestamp_eq_some hl
          obtain ⟨h', m', s', ms', hparts', hval'⟩ := parseTimestamp_eq_some hr
          obtain ⟨ha, hb⟩ := Prod.mk.injEq .. ▸ Option.some_inj.mp hp
          exact ⟨l, arrow, r, h, m, s, ms, h', m', s', ms', harrow ▸ heq, hparts, hparts',
            by rw [← ha, hval]; rfl, by rw [← hb, hval']; rfl⟩
        · exact absurd hp (by simp)
      · exact absurd hp (by simp)
    · exact absurd hp (by simp)

theorem parser_timecode_formula_witness :
    parseTimestamp ("00:00:01,000".data) = some 1000 :=
  parser_timecode_formula.1 ("00:00:01,000".data) 0 0 1 0 (by decide)

/-- C5: the matcher pairs a subtitle with a video exactly when some
discovered subtitle's basename equals the video's ignoring case: a
selected subtitle always is such a candidate, a pairing exists iff a
candidate exists, and when a candidate lives in the video's own directory
the selected subtitle is from that directory. -/
theorem matcher_pairs_by_basename_same_dir_preferred :
    (∀ (subs : List MediaFile) (vid s : MediaFile), pickSubtitle subs vid = some s →
        s ∈ subs ∧ matchesVideo vid s = true) ∧
      (∀ (subs : List MediaFile) (vid : MediaFile),
        (∃ s ∈ subs, matchesVideo vid s = true) ↔ ∃ r, pickSubtitle subs vid = some r) ∧
      (∀ (subs : List MediaFile) (vid s r : MediaFile), s ∈ subs →
        matchesVideo vid s = true → s.dir = vid.dir →
        pickSubtitle subs vid = some r → r.dir = vid.dir) := by
  refine ⟨?_, ?_, ?_⟩
  · intro subs vid s hp
    simp only [pickSubtitle] at hp
    rcases hf : (subs.filter (matchesVideo vid)).filter (fun t => t.dir == vid.dir) with
      _ | ⟨x, xs⟩
    · simp only [hf] at hp
      obtain ⟨ys, hys⟩ := List.head?_eq_some_iff.mp hp
      have : s ∈ subs.filter (matchesVideo vid) := by rw [hys]; exact List.mem_cons_self ..
      exact List.mem_filter.mp this
    · simp only [hf] at hp
      have hx : x = s := Option.some_inj.mp hp
      have : x ∈ subs.filter (matchesVideo vid) :=
        List.mem_of_mem_filter (hf ▸ List.mem_cons_self ..)
      exact hx ▸ List.mem_filter.mp this
  · intro subs vid
    constructor
    · rintro ⟨s, hs, hm⟩
      have hne : subs.filter (matchesVideo vid) ≠ [] :=
        List.ne_nil_of_mem (List.mem_filter.mpr ⟨hs, hm⟩)
      simp only [pickSubtitle]
      rcases hf : (subs.filter (matchesVideo vid)).filter (fun t => t.dir == vid.dir) with
        _ | ⟨x, xs⟩
      · simp only [hf]
        have := List.head?_isSome.mpr hne
        rcases hh : (subs.filter (matchesVideo vid)).head? with _ | r
        · rw [hh] at this; exact absurd this (by simp)
        · exact ⟨r, rfl⟩
      · simp only [hf]
        exact ⟨x, rfl⟩
    · rintro ⟨r, hr⟩
      simp only [pickSubtitle] at hr
      rcases hf : (subs.filter (matchesVideo vid)).filter (fun t => t.dir == vid.dir) with
        _ | ⟨x, xs⟩
      · simp only [hf] at hr
        obtain ⟨ys, hys⟩ := List.head?_eq_some_iff.mp hr
        have : r ∈ subs.filter (matchesVideo vid) := by rw [hys]; exact List.mem_cons_self ..
        obtain ⟨h1, h2⟩ := List.mem_filter.mp this
        exact ⟨r, h1, h2⟩
      · simp only [hf] at hr
        have : x ∈ subs.filter (matchesVideo vid) :=
          List.mem_of_mem_filter (hf ▸ List.mem_cons_self ..)
        obtain ⟨h1, h2⟩ := List.mem_filter.mp this
        exact ⟨x, h1, h2⟩
  · intro subs vid s r hs hm hd hp
    simp only [pickSubtitle] at hp
    have hmem : s ∈ (subs.filter (matchesVideo vid)).filter (fun t => t.dir == vid.dir) :=
      List.mem_filter.mpr ⟨List.mem_filter.mpr ⟨hs, hm⟩, by simp [hd]⟩
    rcases hf : (subs.filter (matchesVideo vid)).filter (fun t => t.dir == vid.dir) with
      _ | ⟨x, xs⟩
    · rw [hf] at hmem; exact absurd hmem (List.not_mem_nil s)
    · simp only [hf] at hp
      have hx : x = r := Option.some_inj.mp hp
      have : x ∈ (subs.filter (matchesVideo vid)).filter (fun t => t.dir == vid.dir) :=
        hf ▸ List.mem_cons_self ..
      have hbeq := (List.mem_filter.mp this).2
      rw [← hx]
      exact eq_of_beq hbeq

theorem matcher_pairs_by_basename_same_dir_preferred_witness :
    pickSubtitle [⟨"a", "video", ".srt"⟩, ⟨"b", "video", ".srt"⟩]
          ⟨"b", "video", ".mp4"⟩ = some ⟨"b", "video", ".srt"⟩ ∧
      (⟨"b", "video", ".srt"⟩ : MediaFile).dir = "b" := by
  refine ⟨by decide, ?_⟩
  exact matcher_pairs_by_basename_same_dir_preferred.2.2
    [⟨"a", "video", ".srt"⟩, ⟨"b", "video", ".srt"⟩]
    ⟨"b", "video", ".mp4"⟩ ⟨"b", "video", ".srt"⟩ ⟨"b", "video", ".srt"⟩
    (by decide) (by decide) (by decide) (by decide)

/-- The interleaving invariant: the working dataset and the unprocessed
input always recompose the full input; before the cut-over the old
snapshot is visible untouched, after it the fully built new one. -/
def rwInv (old : Db) (data : List (VideoMeta × List Segment)) (st : RWState) : Prop :=
  st.built ++ st.pending = data ∧
    (st.committed = false → st.visible = old) ∧
    (st.committed = true → st.visible = buildDb data)

theorem rwInv_init (old : Db) (data : List (VideoMeta × List Segment)) :
    rwInv old data (rwInit old data) := by
  refine ⟨List.nil_append data, fun _ => rfl, fun h => ?_⟩
  simp [rwInit] at h

theorem rwInv_step {old : Db} {data : List (VideoMeta × List Segment)} {st : RWState}
    (hinv : rwInv old data st) (s : RWStep) : rwInv old data (rwStep st s) := by
  obtain ⟨hsplit, hbefore, hafter⟩ := hinv
  cases s with
  | work =>
    simp only [rwStep]
    split
    · exact ⟨hsplit, hbefore, hafter⟩
    · next x rest hp =>
      refine ⟨?_, hbefore, hafter⟩
      rw [List.append_assoc, List.singleton_append, ← hp, hsplit]
  | cutOver =>
    simp only [rwStep]
    split
    · next hc =>
      rw [Bool.and_eq_true] at hc
      obtain ⟨h1, h2⟩ := hc
      have hpe : st.pending = [] := by simpa using h1
      have hbuilt : st.built = data := by rw [← hsplit, hpe, List.append_nil]
      refine ⟨hsplit, ?_, ?_⟩
      · intro h
        exact absurd h (by simp)
      · intro _
        show buildDb st.built = buildDb data
        rw [hbuilt]
    · exact ⟨hsplit, hbefore, hafter⟩
  | read => exact ⟨hsplit, hbefore, hafter⟩

theorem observations_sound {old : Db} {data : List (VideoMeta × List Segment)} :
    ∀ (steps : List RWStep) (st : RWState), rwInv old data st →
      ∀ o ∈ observations st steps, o = old ∨ o = buildDb data := by
  intro steps
  induction steps with
  | nil => intro st _ o ho; exact absurd ho (List.not_mem_nil o)
  | cons s rest ih =>
    intro st hinv o ho
    cases s with
    | read =>
      rcases List.mem_cons.mp ho with h | h
      · subst h
        rcases hc : st.committed with _ | _
        · exact Or.inl (hinv.2.1 hc)
        · exact Or.inr (hinv.2.2 hc)
      · exact ih (rwStep st .read) (rwInv_step hinv .read) o h
    | work => exact ih (rwStep st .work) (rwInv_step hinv .work) o ho
    | cutOver => exact ih (rwStep st .cutOver) (rwInv_step hinv .cutOver) o ho

/-- C1: in every interleaving of a `replace_all` with concurrent reads,
each read observes either the complete old dataset or the complete new
one — never a partially rebuilt state. -/
theorem replace_all_atomic_snapshot (old : Db) (data : List (VideoMeta × List Segment))
    (steps : List RWStep) :
    ∀ o ∈ observations (rwInit old data) steps, o = old ∨ o = buildDb data :=
  observations_sound steps (rwInit old data) (rwInv_init old data)

theorem replace_all_atomic_snapshot_witness :
    buildDb [(⟨"v", "v.mp4", ".mp4"⟩, [])] = emptyDb ∨
      buildDb [(⟨"v", "v.mp4", ".mp4"⟩, [])] = buildDb [(⟨"v", "v.mp4", ".mp4"⟩, [])] :=
  replace_all_atomic_snapshot emptyDb [(⟨"v", "v.mp4", ".mp4"⟩, [])]
    [.work, .cutOver, .read] (buildDb [(⟨"v", "v.mp4", ".mp4"⟩, [])]) (by decide)

/-- Inversion of a successful video insert: the row is appended, segments
are untouched, and no row with that basename existed (UNIQUE). -/
theorem insertVideo_some_inv {db : Db} {meta : VideoMeta} {db1 : Db} {vid : Nat}
    (h : insertVideo db meta = some (db1, vid)) :
    db1.videos = db.videos ++
        [{ id := db.nextVideoId, basename := meta.basename,
           rel_path := meta.rel_path, ext := meta.ext }] ∧
      db1.segments = db.segments ∧
      db.videos.any (fun v => v.basename == meta.basename) = false := by
  unfold insertVideo at h
  split at h
  · exact absurd h (by simp)
  · next hcond =>
    injection h with h'
    injection h' with h1 h2
    subst h1
    exact ⟨rfl, rfl, by simpa using hcond⟩

/-- Inversion of a successful segment insert: the row is appended, videos
are untouched, and the referenced video exists (FK). -/
theorem insertSegment_some_inv {db : Db} {vid : Nat} {idx ms me : Int} {t : String}
    {db' : Db} (h : insertSegment db vid idx ms me t = some db') :
    db'.videos = db.videos ∧
      db'.segments = db.segments ++
        [{ id := db.nextSegmentId, video_id := vid, segment_index := idx,
           start_ms := ms, end_ms := me, text := t }] ∧
      db.videos.any (fun v => v.id == vid) = true := by
  unfold insertSegment at h
  split at h
  · next hcond =>
    injection h with h1
    subst h1
    exact ⟨rfl, rfl, hcond⟩
  · exact absurd h (by simp)

/-- A successful segment insert advances the segment SERIAL counter and
leaves the video counter alone. -/
theorem insertSegment_some_counters {db : Db} {vid : Nat} {idx ms me : Int}
    {t : String} {db' : Db} (h : insertSegment db vid idx ms me t = some db') :
    db'.nextSegmentId = db.nextSegmentId + 1 ∧ db'.nextVideoId = db.nextVideoId := by
  unfold insertSegment at h
  split at h
  · next hcond =>
    injection h with h1
    subst h1
    exact ⟨rfl, rfl⟩
  · exact absurd h (by simp)

theorem uniqueBasenames_emptyDb : uniqueBasenames emptyDb := by
  simp [uniqueBasenames, emptyDb]

theorem noOrphans_emptyDb : noOrphans emptyDb := by
  intro s hs
  simp [emptyDb] at hs

theorem uniqueBasenames_insertVideo {db : Db} {meta : VideoMeta} {db1 : Db} {vid : Nat}
    (h : insertVideo db meta = some (db1, vid)) (hu : uniqueBasenames db) :
    uniqueBasenames db1 := by
  obtain ⟨hv, _, hany⟩ := insertVideo_some_inv h
  unfold uniqueBasenames at *
  rw [hv, List.map_append, List.nodup_append]
  refine ⟨hu, List.nodup_singleton _, ?_⟩
  intro a ha hb
  obtain ⟨v, hvmem, hva⟩ := List.mem_map.mp ha
  have hav : a = meta.basename := by simpa using hb
  have := List.any_eq_false.mp hany v hvmem
  rw [hva, hav] at this
  exact this (by simp)

theorem noOrphans_insertVideo {db : Db} {meta : VideoMeta} {db1 : Db} {vid : Nat}
    (h : insertVideo db meta = some (db1, vid)) (hn : noOrphans db) : noOrphans db1 := by
  obtain ⟨hv, hs, _⟩ := insertVideo_some_inv h
  intro s hmem
  rw [hs] at hmem
  obtain ⟨v, hvm, hvi⟩ := hn s hmem
  exact ⟨v, by rw [hv]; exact List.mem_append_left _ hvm, hvi⟩

theorem uniqueBasenames_insertSegment {db : Db} {vid : Nat} {idx ms me : Int}
    {t : String} {db' : Db} (h : insertSegment db vid idx ms me t = some db')
    (hu : uniqueBasenames db) : uniqueBasenames db' := by
  obtain ⟨hv, _, _⟩ := insertSegment_some_inv h
  unfold uniqueBasenames at *
  rw [hv]
  exact hu

theorem noOrphans_insertSegment {db : Db} {vid : Nat} {idx ms me : Int}
    {t : String} {db' : Db} (h : insertSegment db vid idx ms me t = some db')
    (hn : noOrphans db) : noOrphans db' := by
  obtain ⟨hv, hs, hany⟩ := insertSegment_some_inv h
  intro s hmem
  rw [hs] at hmem
  rcases List.mem_append.mp hmem with hold | hnew
  · obtain ⟨v, hvm, hvi⟩ := hn s hold
    exact ⟨v, by rw [hv]; exact hvm, hvi⟩
  · obtain ⟨v, hvm, hvb⟩ := List.any_eq_true.mp hany
    have hseq := List.mem_singleton.mp hnew
    refine ⟨v, by rw [hv]; exact hvm, ?_⟩
    rw [hseq]
    exact eq_of_beq hvb

theorem wf_insertSegmentsFrom (vid i : Nat) (segs : List Segment) (db : Db)
    (hu : uniqueBasenames db) (hn : noOrphans db) :
    uniqueBasenames (insertSegmentsFrom db vid i segs) ∧
      noOrphans (insertSegmentsFrom db vid i segs) := by
  induction segs generalizing db i with
  | nil => exact ⟨hu, hn⟩
  | cons s rest ih =>
    unfold insertSegmentsFrom
    rcases hi : insertSegment db vid i s.start_ms s.end_ms s.text with _ | db'
    · exact ih (i + 1) db hu hn
    · exact ih (i + 1) db' (uniqueBasenames_insertSegment hi hu)
        (noOrphans_insertSegment hi hn)

theorem wf_addVideoWithSegments (meta : VideoMeta) (segs : List Segment) (db : Db)
    (hu : uniqueBasenames db) (hn : noOrphans db) :
    uniqueBasenames (addVideoWithSegments db meta segs) ∧
      noOrphans (addVideoWithSegments db meta segs) := by
  unfold addVideoWithSegments
  rcases hi : insertVideo db meta with _ | ⟨db1, vid⟩
  · exact ⟨hu, hn⟩
  · exact wf_insertSegmentsFrom vid 0 segs db1 (uniqueBasenames_insertVideo hi hu)
      (noOrphans_insertVideo hi hn)

theorem wf_buildDb (data : List (VideoMeta × List Segment)) :
    uniqueBasenames (buildDb data) ∧ noOrphans (buildDb data) := by
  unfold buildDb
  have hgen : ∀ (l : List (VideoMeta × List Segment)) (db : Db),
      uniqueBasenames db → noOrphans db →
      uniqueBasenames (l.foldl (fun db x => addVideoWithSegments db x.1 x.2) db) ∧
        noOrphans (l.foldl (fun db x => addVideoWithSegments db x.1 x.2) db) := by
    intro l
    induction l with
    | nil => exact fun db hu hn => ⟨hu, hn⟩
    | cons x rest ih =>
      intro db hu hn
      have := wf_addVideoWithSegments x.1 x.2 db hu hn
      exact ih (addVideoWithSegments db x.1 x.2) this.1 this.2
  exact hgen data emptyDb uniqueBasenames_emptyDb noOrphans_emptyDb

theorem wf_runOps (ops : List CoreOp) (db : Db)
    (hu : uniqueBasenames db) (hn : noOrphans db) :
    uniqueBasenames (runOps db ops) ∧ noOrphans (runOps db ops) := by
  induction ops generalizing db with
  | nil => exact ⟨hu, hn⟩
  | cons op rest ih =>
    cases op with
    | reindex data => exact ih (buildDb data) (wf_buildDb data).1 (wf_buildDb data).2
    | searchOp p => exact ih db hu hn

/-- C4: every state reachable by reindex and search operations has at most
one video row per basename and no orphaned segments; re-running the same
reindex replaces rather than duplicates; and deleting a video cascades to
every segment it owns. -/
theorem video_identity_replace_and_cascade :
    (∀ ops : List CoreOp,
        uniqueBasenames (runOps emptyDb ops) ∧ noOrphans (runOps emptyDb ops)) ∧
      (∀ (db : Db) (d : List (VideoMeta × List Segment)),
        applyOp (applyOp db (.reindex d)) (.reindex d) = applyOp db (.reindex d)) ∧
      (∀ (db : Db) (b : String) (v : VideoRow), v ∈ db.videos → v.basename = b →
        ∀ s ∈ (deleteVideoCascade db b).segments, s.video_id ≠ v.id) := by
  refine ⟨?_, fun db d => rfl, ?_⟩
  · intro ops
    exact wf_runOps ops emptyDb uniqueBasenames_emptyDb noOrphans_emptyDb
  · intro db b v hv hb s hs heq
    simp only [deleteVideoCascade] at hs
    have hcond := (List.mem_filter.mp hs).2
    have hall : ∀ x ∈ db.videos, x.basename = b → ¬x.id = s.video_id := by
      simpa using hcond
    exact hall v hv hb heq.symm

theorem video_identity_replace_and_cascade_witness :
    uniqueBasenames (runOps emptyDb [CoreOp.reindex [(⟨"v", "v.mp4", ".mp4"⟩, [])]]) ∧
      ({ id := 0, video_id := 1, segment_index := 0, start_ms := 1, end_ms := 2,
         text := "a" } : SegmentRow).video_id ≠ 0 :=
  ⟨(video_identity_replace_and_cascade.1
      [CoreOp.reindex [(⟨"v", "v.mp4", ".mp4"⟩, [])]]).1,
    video_identity_replace_and_cascade.2.2
      (buildDb [(⟨"v", "v.mp4", ".mp4"⟩, []),
        (⟨"w", "w.mp4", ".mp4"⟩, [⟨1, 2, "a"⟩])]) "v"
      { id := 0, basename := "v", rel_path := "v.mp4", ext := ".mp4" }
      (by decide) rfl
      { id := 0, video_id := 1, segment_index := 0, start_ms := 1, end_ms := 2,
        text := "a" }
      (by decide)⟩

theorem splitBlocksAux_append_blank (b : List Char) (hb : (trimChars b).isEmpty = true)
    (q : List (List Char)) :
    ∀ (p : List (List Char)) (cur : List (List Char)),
      splitBlocksAux (p ++ b :: q) cur = splitBlocksAux p cur ++ splitBlocksAux q [] := by
  intro p
  induction p with
  | nil => intro cur; simp [splitBlocksAux, hb]
  | cons l ls ih =>
    intro cur
    by_cases hl : (trimChars l).isEmpty = true <;>
      simp [splitBlocksAux, hl, ih]

/-- Parsing distributes over blank-line separation: segments come out in
the order of the blocks of the file. -/
theorem parseSrt_append_blank (p : List String) (blank : String) (q : List String)
    (hb : (trimChars blank.data).isEmpty = true) :
    parseSrt (p ++ blank :: q) = parseSrt p ++ parseSrt q := by
  unfold parseSrt splitBlocks
  rw [List.map_append, List.map_cons,
    splitBlocksAux_append_blank blank.data hb (q.map String.data) (p.map String.data) [],
    List.filter_append, List.filterMap_append]

theorem segRows_index_ge (vid : Nat) (segs : List Segment) :
    ∀ (f i : Nat) (r : SegmentRow), r ∈ segRows vid f i segs →
      (i : Int) ≤ r.segment_index := by
  induction segs with
  | nil => intro f i r hr; exact absurd hr (List.not_mem_nil r)
  | cons s rest ih =>
    intro f i r hr
    rcases List.mem_cons.mp hr with h | h
    · rw [h]
    · have := ih (f + 1) (i + 1) r h
      have hc : ((i : Int) + 1) ≤ r.segment_index := by push_cast at this ⊢; omega
      omega

theorem segRows_index_ascending (vid : Nat) (segs : List Segment) :
    ∀ f i, List.Pairwise (fun a b => a.segment_index < b.segment_index)
      (segRows vid f i segs) := by
  induction segs with
  | nil => intro f i; exact List.Pairwise.nil
  | cons s rest ih =>
    intro f i
    refine List.Pairwise.cons ?_ (ih (f + 1) (i + 1))
    intro r hr
    have := segRows_index_ge vid rest (f + 1) (i + 1) r hr
    show (i : Int) < r.segment_index
    push_cast at this
    omega

theorem segRows_values (vid : Nat) (segs : List Segment) :
    ∀ f i, (segRows vid f i segs).map (fun r => (r.start_ms, r.end_ms, r.text)) =
      segs.map (fun s => ((s.start_ms : Int), (s.end_ms : Int), s.text)) := by
  induction segs with
  | nil => intro f i; rfl
  | cons s rest ih => intro f i; simp [segRows, ih]

theorem insertSegmentsFrom_eq_segRows (vid : Nat) (segs : List Segment) :
    ∀ (db : Db) (i : Nat), db.videos.any (fun v => v.id == vid) = true →
      (insertSegmentsFrom db vid i segs).segments =
        db.segments ++ segRows vid db.nextSegmentId i segs := by
  induction segs with
  | nil => intro db i _; simp [insertSegmentsFrom, segRows]
  | cons s rest ih =>
    intro db i hfk
    unfold insertSegmentsFrom
    rcases hi : insertSegment db vid (i : Int) (s.start_ms : Int) (s.end_ms : Int) s.text
      with _ | db1
    · unfold insertSegment at hi
      rw [hfk] at hi
      exact absurd hi (by simp)
    · simp only [hi]
      obtain ⟨hv, hs, _⟩ := insertSegment_some_inv hi
      have hnext := insertSegment_some_counters hi
      rw [ih db1 (i + 1) (by rw [hv]; exact hfk), hs, hnext.1]
      simp [segRows]

/-- C7: parsed segments keep the file's block order (parsing distributes
over blank-line separation), the store writes them with ascending sequence
indexes and times and text exactly as parsed, and a file with out-of-order,
overlapping and end-before-start cues parses to exactly those values in
file order, neither rejected nor reordered. -/
theorem segments_preserved_in_source_order :
    (∀ (p : List String) (blank : String) (q : List String),
        (trimChars blank.data).isEmpty = true →
        parseSrt (p ++ blank :: q) = parseSrt p ++ parseSrt q) ∧
      (∀ (db : Db) (vid i : Nat) (segs : List Segment),
        db.videos.any (fun v => v.id == vid) = true →
        (insertSegmentsFrom db vid i segs).segments =
          db.segments ++ segRows vid db.nextSegmentId i segs) ∧
      (∀ (vid f i : Nat) (segs : List Segment),
        List.Pairwise (fun a b => a.segment_index < b.segment_index)
          (segRows vid f i segs) ∧
        (segRows vid f i segs).map (fun r => (r.start_ms, r.end_ms, r.text)) =
          segs.map (fun s => ((s.start_ms : Int), (s.end_ms : Int), s.text))) ∧
      parseSrt outOfOrderSrtLines =
        [⟨5000, 1000, "Late first"⟩, ⟨500, 800, "Early second"⟩,
          ⟨700, 600, "End before start"⟩] := by
  refine ⟨parseSrt_append_blank, ?_, ?_, by decide⟩
  · intro db vid i segs h
    exact insertSegmentsFrom_eq_segRows vid segs db i h
  · intro vid f i segs
    exact ⟨segRows_index_ascending vid segs f i, segRows_values vid segs f i⟩

theorem segments_preserved_in_source_order_witness :
    parseSrt (["1", "00:00:01,000 --> 00:00:02,000", "A"] ++ "" ::
        ["2", "00:00:03,000 --> 00:00:04,000", "B"]) =
      parseSrt ["1", "00:00:01,000 --> 00:00:02,000", "A"] ++
        parseSrt ["2", "00:00:03,000 --> 00:00:04,000", "B"] :=
  segments_preserved_in_source_order.1
    ["1", "00:00:01,000 --> 00:00:02,000", "A"] ""
    ["2", "00:00:03,000 --> 00:00:04,000", "B"] (by decide)

theorem lexLeChars_total : ∀ a b : List Char, lexLeChars a b = true ∨ lexLeChars b a = true := by
  intro a
  induction a with
  | nil => intro b; left; rfl
  | cons x xs ih =>
    intro b
    cases b with
    | nil => right; rfl
    | cons y ys =>
      by_cases hxy : x < y
      · left; simp [lexLeChars, hxy]
      · by_cases hyx : y < x
        · right; simp [lexLeChars, hyx]
        · have hxyeq : x = y := le_antisymm (not_lt.mp hyx) (not_lt.mp hxy)
          subst hxyeq
          rcases ih ys with h | h
          · left; simp [lexLeChars, lt_irrefl, h]
          · right; simp [lexLeChars, lt_irrefl, h]

theorem lexLeChars_trans :
    ∀ a b c : List Char, lexLeChars a b = true → lexLeChars b c = true →
      lexLeChars a c = true := by
  intro a
  induction a with
  | nil => intro b c _ _; rfl
  | cons x xs ih =>
    intro b c hab hbc
    cases b with
    | nil => exact absurd hab (by simp [lexLeChars])
    | cons y ys =>
      cases c with
      | nil => exact absurd hbc (by simp [lexLeChars])
      | cons z zs =>
        simp only [lexLeChars] at hab hbc ⊢
        by_cases hxy : x < y
        · by_cases hyz : y < z
          · simp [lt_trans hxy hyz]
          · by_cases hzy : z < y
            · rw [if_neg hyz, if_pos hzy] at hbc
              exact absurd hbc (by simp)
            · have hyzeq : y = z := le_antisymm (not_lt.mp hzy) (not_lt.mp hyz)
              rw [← hyzeq]
              simp [hxy]
        · by_cases hyx : y < x
          · rw [if_neg hxy, if_pos hyx] at hab
            exact absurd hab (by simp)
          · have hxyeq : x = y := le_antisymm (not_lt.mp hyx) (not_lt.mp hxy)
            subst hxyeq
            rw [if_neg hxy, if_neg hxy] at hab
            by_cases hxz : x < z
            · simp [hxz]
            · by_cases hzx : z < x
              · rw [if_neg hxz, if_pos hzx] at hbc
                exact absurd hbc (by simp)
              · have hxzeq : x = z := le_antisymm (not_lt.mp hzx) (not_lt.mp hxz)
                subst hxzeq
                rw [if_neg hxz, if_neg hxz] at hbc
                rw [if_neg hxz, if_neg hxz]
                exact ih ys zs hab hbc

theorem rankLE_total (a b : SearchHit) : rankLE a b = true ∨ rankLE b a = true := by
  simp only [rankLE, Bool.or_eq_true, Bool.and_eq_true, decide_eq_true_eq]
  rcases lt_trichotomy a.score b.score with h | h | h
  · right; left; exact h
  · rcases lt_trichotomy a.start_ms b.start_ms with h' | h' | h'
    · left; right; exact ⟨h, Or.inl h'⟩
    · rcases lexLeChars_total a.video_basename.data b.video_basename.data with hl | hl
      · left; right; exact ⟨h, Or.inr ⟨h', hl⟩⟩
      · right; right; exact ⟨h.symm, Or.inr ⟨h'.symm, hl⟩⟩
    · right; right; exact ⟨h.symm, Or.inl h'⟩
  · left; left; exact h

theorem rankLE_trans {a b c : SearchHit} (hab : rankLE a b = true)
    (hbc : rankLE b c = true) : rankLE a c = true := by
  simp only [rankLE, Bool.or_eq_true, Bool.and_eq_true, decide_eq_true_eq] at hab hbc ⊢
  rcases hab with h1 | ⟨hs1, hi1⟩ <;> rcases hbc with h2 | ⟨hs2, hi2⟩
  · exact Or.inl (by omega)
  · exact Or.inl (by omega)
  · exact Or.inl (by omega)
  · refine Or.inr ⟨by omega, ?_⟩
    rcases hi1 with h1' | ⟨he1, hl1⟩ <;> rcases hi2 with h2' | ⟨he2, hl2⟩
    · exact Or.inl (by omega)
    · exact Or.inl (by omega)
    · exact Or.inl (by omega)
    · exact Or.inr ⟨by omega, lexLeChars_trans _ _ _ hl1 hl2⟩

/-- What the ranking comparison guarantees between an earlier and a later
result: no lower score first, and among equal scores ascending start time,
then basename order. -/
theorem rankLE_elim {a b : SearchHit} (h : rankLE a b = true) :
    b.score ≤ a.score ∧ (a.score = b.score → a.start_ms ≤ b.start_ms ∧
      (a.start_ms = b.start_ms →
        lexLeChars a.video_basename.data b.video_basename.data = true)) := by
  simp only [rankLE, Bool.or_eq_true, Bool.and_eq_true, decide_eq_true_eq] at h
  rcases h with h1 | ⟨hs, hi⟩
  · exact ⟨le_of_lt h1, fun he => absurd h1 (by omega)⟩
  · refine ⟨le_of_eq hs.symm, fun _ => ?_⟩
    rcases hi with h' | ⟨he, hl⟩
    · exact ⟨le_of_lt h', fun heq => absurd h' (by omega)⟩
    · exact ⟨le_of_eq he, fun _ => hl⟩

/-- C8: search is read-only (it returns the index unchanged), repeating
the same search against the state the first one returned yields the same
response, and the exact-search result page is ranked with ties broken by
ascending start time and then by video basename. -/
theorem search_deterministic_readonly_ranked :
    (∀ (db : Db) (p : SearchParams), (search db p).2 = db) ∧
      (∀ (db : Db) (p : SearchParams), (search (search db p).2 p).1 = (search db p).1) ∧
      (∀ (db : Db) (q : String) (file : Option String) (offset limit : Nat),
        List.Pairwise (fun a b =>
          b.score ≤ a.score ∧ (a.score = b.score → a.start_ms ≤ b.start_ms ∧
            (a.start_ms = b.start_ms →
              lexLeChars a.video_basename.data b.video_basename.data = true)))
          (search_exact db q file offset limit).items) := by
  refine ⟨fun db p => rfl, fun db p => rfl, ?_⟩
  intro db q file offset limit
  have hsorted : List.Pairwise RankLE
      (List.insertionSort RankLE (segmentHits db (parseQuery q) file)) :=
    @List.sorted_insertionSort _ RankLE _ ⟨rankLE_total⟩ ⟨fun _ _ _ => rankLE_trans⟩ _
  have hsub : List.Sublist
      (((List.insertionSort RankLE (segmentHits db (parseQuery q) file)).drop
        offset).take (min limit maxLimit))
      (List.insertionSort RankLE (segmentHits db (parseQuery q) file)) :=
    (List.take_sublist _ _).trans (List.drop_sublist _ _)
  exact (hsorted.sublist hsub).imp (fun hab => rankLE_elim hab)

theorem search_deterministic_readonly_ranked_witness :
    (search emptyDb { q := "hello" }).2 = emptyDb :=
  search_deterministic_readonly_ranked.1 emptyDb { q := "hello" }

end SrtSearch
